import Mathlib

/-!
Verification development for the `udev` hwdb core: the on-disk trie decoder
(`src/hwdb/trie/entry.rs`), the trie searcher and property-list driver
(`src/hwdb.rs`).  The in-memory database buffer is a list of bytes; query
strings are lists of Unicode code points (what Rust's `str::chars` yields)
with their UTF-8 byte projection made explicit, since the source mixes
character-based and byte-based indexing.  Record decoders, the string pool
reader, the glob line buffer and the child-entry ordering live in source
files that are not part of the audited tree; they are modelled from the
specification and marked as such.  The glob matcher `trie_fnmatch` is kept
abstract: the searcher is parameterised over it.
-/

/-- Bytes of the in-memory database buffer. -/
abbrev Buf := List Nat

/-- A string as a list of Unicode code points (Rust `str::chars`). -/
abbrev Chars := List Nat

/-- The external property list, modelled as a sequence of (key, value)
byte-string pairs in insertion order (spec section 1: an opaque sink
supporting clear, add and iteration). -/
abbrev UList := List (List Nat × List Nat)

/-- Error kinds surfaced by the hwdb core (spec section 7). -/
inductive Err where
  | bounds
  | header
  | lineOverflow
  | addProp
  | lookup
  | notFound
  | openErr
deriving DecidableEq

/-- UTF-8 encoding of one code point (the byte view Rust exposes through
`str::len` and `str::as_bytes`). -/
def utf8Bytes (c : Nat) : List Nat :=
  if c < 128 then [c]
  else if c < 2048 then [192 + c / 64, 128 + c % 64]
  else if c < 65536 then [224 + c / 4096, 128 + c / 64 % 64, 128 + c % 64]
  else [240 + c / 262144, 128 + c / 4096 % 64, 128 + c / 64 % 64, 128 + c % 64]

/-- UTF-8 byte sequence of a string (`str::as_bytes`). -/
def strBytes (q : Chars) : List Nat := (q.map utf8Bytes).flatten

/-- Byte length of a string (`str::len`). -/
def utf8Len (q : Chars) : Nat := (strBytes q).length

/-- Little-endian 64-bit read at `off`, absent bytes read as zero. -/
def readLE64 (v : Buf) (off : Nat) : Nat :=
  v.getD off 0 + 256 * (v.getD (off + 1) 0 + 256 * (v.getD (off + 2) 0 +
    256 * (v.getD (off + 3) 0 + 256 * (v.getD (off + 4) 0 + 256 *
    (v.getD (off + 5) 0 + 256 * (v.getD (off + 6) 0 + 256 * v.getD (off + 7) 0))))))

/-- Record sizes published from the header into process-level state by
`UdevHwdb::new` (`src/hwdb.rs` lines 15-44); modelled as an explicit value
threaded through the decoders instead of global atomics. -/
structure Sizes where
  node_size : Nat
  child_entry_size : Nat
  value_entry_size : Nat
deriving DecidableEq

/-- Default record sizes, equal to the Rust struct sizes (`src/hwdb.rs`
lines 15-17): node 24, child entry 16, value entry 32 bytes. -/
def szD : Sizes := ⟨24, 16, 32⟩

/-- On-disk node record: `prefix_off`, `children_count`, `values_count`
(spec section 3). -/
structure TrieNode where
  prefix_off : Nat
  children_count : Nat
  values_count : Nat
deriving DecidableEq

/-- Modelled from the spec: `decode_node` (the `TrieNode` decoder lives in
`src/hwdb/trie.rs`, which is not in the audited tree).  Spec section 4.3:
read one fixed-width record from the start of `val` using the
header-declared `node_size`, failing with `hwdb-bounds` when the buffer is
shorter; fields at the layout offsets 0, 8 and 16 of the 24-byte record. -/
def TrieNode.tryFrom (sz : Sizes) (val : Buf) : Except Err TrieNode :=
  if sz.node_size ≤ val.length then
    .ok ⟨readLE64 val 0, val.getD 8 0, readLE64 val 16⟩
  else .error .bounds

/-- On-disk child-edge record: label byte `c` and destination offset
`child_off` (spec section 3). -/
structure TrieChildEntry where
  c : Nat
  child_off : Nat
deriving DecidableEq

/-- Modelled from the spec: `decode_child` (`src/hwdb/trie.rs` is not in
the audited tree).  Spec section 4.3: bounds check against the
header-declared `child_entry_size`, label byte at offset 0, `child_off`
little-endian at offset 8, padding ignored. -/
def TrieChildEntry.tryFrom (sz : Sizes) (val : Buf) : Except Err TrieChildEntry :=
  if sz.child_entry_size ≤ val.length then
    .ok ⟨val.getD 0 0, readLE64 val 8⟩
  else .error .bounds

/-- On-disk value record: `key_off` and `value_off` into the string pool
(spec section 3). -/
structure TrieValueEntry where
  key_off : Nat
  value_off : Nat
deriving DecidableEq

/-- Modelled from the spec: `decode_value` (`src/hwdb/trie.rs` is not in
the audited tree).  Spec section 4.3: bounds check against the
header-declared `value_entry_size`, two little-endian offsets at 0 and 8,
reserved bytes ignored. -/
def TrieValueEntry.tryFrom (sz : Sizes) (val : Buf) : Except Err TrieValueEntry :=
  if sz.value_entry_size ≤ val.length then
    .ok ⟨readLE64 val 0, readLE64 val 8⟩
  else .error .bounds

/-- Stable insertion of a child entry before the first entry with a
strictly larger label. -/
def insertChild (x : TrieChildEntry) : List TrieChildEntry → List TrieChildEntry
  | [] => [x]
  | y :: ys => if y.c < x.c then y :: insertChild x ys else x :: y :: ys

/-- Modelled from the spec: the ordering used by `children.sort()` in
`TrieEntry::try_from` (the `Ord` instance lives in `src/hwdb/trie.rs`,
which is not in the audited tree).  Spec section 4.4: sort children
ascending by edge label `c`, stable. -/
def sortChildren : List TrieChildEntry → List TrieChildEntry
  | [] => []
  | x :: xs => insertChild x (sortChildren xs)

/-- Error-propagating map over a list, mirroring the push loops of
`TrieEntry::try_from`: the first failing element aborts the whole
decode. -/
def mapE {α : Type} (f : Nat → Except Err α) : List Nat → Except Err (List α)
  | [] => .ok []
  | x :: xs =>
    match f x with
    | .error e => .error e
    | .ok a =>
      match mapE f xs with
      | .error e => .error e
      | .ok as => .ok (a :: as)

/-- A decoded trie entry: one node plus its child table and value table
(`src/hwdb/trie/entry.rs` lines 8-14). -/
structure TrieEntry where
  node : TrieNode
  children : List TrieChildEntry
  values : List TrieValueEntry
deriving DecidableEq

/-- Translation of `TrieEntry::try_from` (`src/hwdb/trie/entry.rs` lines
85-127).  The node is decoded first; the child table is decoded starting
at the fixed struct size 24 (`mem::size_of::<TrieNode>()`) with stride 16,
but only when the whole table range `[24, 24 + 16*count)` lies inside the
buffer and the count is positive — otherwise it is silently left empty.
The value table follows the same pattern with stride 32 starting at the
index reached after the children.  Subtractions saturate as in the Rust
source. -/
def TrieEntry.tryFrom (sz : Sizes) (val : Buf) : Except Err TrieEntry :=
  match TrieNode.tryFrom sz val with
  | .error e => .error e
  | .ok node =>
    let childCount := node.children_count
    let childEnd := 24 + (childCount * 16 - 1)
    let childrenRes : Except Err (List TrieChildEntry) :=
      if 24 ≤ childEnd ∧ childEnd < val.length ∧ 0 < childCount then
        mapE (fun k => TrieChildEntry.tryFrom sz ((val.drop (24 + 16 * k)).take 16))
          (List.range childCount)
      else .ok []
    match childrenRes with
    | .error e => .error e
    | .ok children =>
      let idx := 24 + 16 * children.length
      let valueCount := node.values_count
      let valueEnd := idx + (valueCount * 32 - 1)
      let valuesRes : Except Err (List TrieValueEntry) :=
        if idx ≤ valueEnd ∧ valueEnd < val.length ∧ 0 < valueCount then
          mapE (fun k => TrieValueEntry.tryFrom sz ((val.drop (idx + 32 * k)).take 32))
            (List.range valueCount)
        else .ok []
      match valuesRes with
      | .error e => .error e
      | .ok values => .ok ⟨node, sortChildren children, values⟩

/-- Child lookup carrying the destination offset alongside the decoded
entry.  Translation of `TrieEntry::lookup_child` (`src/hwdb/trie/entry.rs`
lines 65-82): find the first child whose label equals `c` (the comparison
on child entries lives in the unavailable `src/hwdb/trie.rs` and is
modelled from spec section 4.4 as label equality), then, when `child_off`
is inside the buffer, decode the destination entry there, turning decode
errors into `none`.  The offset component is ghost information used by the
termination argument. -/
def TrieEntry.lookupChildOff (n : TrieEntry) (sz : Sizes) (buf : Buf) (c : Nat) :
    Option (Nat × TrieEntry) :=
  match n.children.find? (fun ch => ch.c == c) with
  | none => none
  | some child =>
    if child.child_off < buf.length then
      match TrieEntry.tryFrom sz (buf.drop child.child_off) with
      | .ok e => some (child.child_off, e)
      | .error _ => none
    else none

/-- Child lookup as in the source: just the decoded entry. -/
def TrieEntry.lookupChild (n : TrieEntry) (sz : Sizes) (buf : Buf) (c : Nat) :
    Option TrieEntry :=
  (n.lookupChildOff sz buf c).map (·.2)

/-- On-disk file header (spec section 3). -/
structure TrieHeader where
  signature : List Nat
  tool_version : Nat
  file_size : Nat
  header_size : Nat
  node_size : Nat
  child_entry_size : Nat
  value_entry_size : Nat
  strings_len : Nat
  nodes_len : Nat
  nodes_root_off : Nat
deriving DecidableEq

/-- Modelled from the spec: the 8-byte magic of the header (spec section 3
leaves the value open; these are the bytes of the known on-disk format). -/
def hwdbSig : List Nat := [75, 83, 76, 80, 72, 72, 82, 72]

/-- Modelled from the spec: the header decoder (`TrieHeader::try_from`
lives in `src/hwdb/trie.rs`, which is not in the audited tree).  Spec
section 4.2: parse the 80-byte little-endian header, failing with
`hwdb-header` when the buffer is short, the signature is wrong, or a
record size is zero. -/
def TrieHeader.tryFrom (val : Buf) : Except Err TrieHeader :=
  if val.length < 80 then .error .header
  else if val.take 8 ≠ hwdbSig then .error .header
  else if readLE64 val 32 = 0 ∨ readLE64 val 40 = 0 ∨ readLE64 val 48 = 0 then .error .header
  else .ok ⟨val.take 8, readLE64 val 8, readLE64 val 16, readLE64 val 24, readLE64 val 32,
    readLE64 val 40, readLE64 val 48, readLE64 val 56, readLE64 val 64, readLE64 val 72⟩

/-- Record sizes as published from a header by `UdevHwdb::new`
(`src/hwdb.rs` lines 127-129). -/
def TrieHeader.sizes (h : TrieHeader) : Sizes :=
  ⟨h.node_size, h.child_entry_size, h.value_entry_size⟩

/-- Modelled from the spec: `trie_string` (it lives in `src/hwdb/trie.rs`,
which is not in the audited tree).  Spec section 3: the maximal byte
sequence starting at `off` that terminates at the first NUL.  Spec
section 9 fixes string handling at the byte level, so the scan over its
characters in `trie_search` is modelled as a scan over these bytes. -/
def trieString (buf : Buf) (off : Nat) : List Nat :=
  (buf.drop off).takeWhile (fun b => b ≠ 0)

/-- Modelled from the spec: the fixed capacity of the glob line buffer
(spec section 4.5.1 leaves the bound open). -/
def lineMax : Nat := 16384

/-- Modelled from the spec: the glob scratch line buffer (`LineBuf` lives
in `src/hwdb/line.rs`, which is not in the audited tree).  Spec
section 2: a fixed-capacity scratch string with push/pop of characters. -/
structure LineBuf where
  buf : List Nat
deriving DecidableEq

/-- An empty line buffer. -/
def LineBuf.empty : LineBuf := ⟨[]⟩

/-- Modelled from the spec: push one character, failing with
`hwdb-line-overflow` when the capacity is exhausted (spec section 4.5.1). -/
def LineBuf.addChar (lb : LineBuf) (c : Nat) : Except Err LineBuf :=
  if lb.buf.length < lineMax then .ok ⟨lb.buf ++ [c]⟩ else .error .lineOverflow

/-- Modelled from the spec: pop the last character. -/
def LineBuf.removeChar (lb : LineBuf) : LineBuf := ⟨lb.buf.dropLast⟩

/-- Shape of the abstract glob matcher `trie_fnmatch` (its implementation
lives in `src/hwdb/line.rs`, which is not in the audited tree): given the
line buffer, the database buffer, the node to match under, the glob
position inside that node's string and the remaining query tail in bytes,
it extends the property list and may fail.  The searcher is parameterised
over it. -/
abbrev Fnm := LineBuf → Buf → TrieEntry → Nat → List Nat → UList → UList × Option Err

/-- A glob matcher that matches nothing, used to instantiate theorems. -/
def fnmTriv : Fnm := fun _ _ _ _ _ list => (list, none)

/-- Translation of `UdevHwdb::_add_property` (`src/hwdb.rs` lines
233-243): a key beginning with a single ASCII space is forwarded with that
space stripped; any other key is silently dropped.  The external list's
`add_entry` is not in the audited tree and is modelled from spec
section 1 as an always-successful append to the sink. -/
def addProperty (list : UList) (key value : List Nat) : UList :=
  match key with
  | k :: nkey => if k = 32 then list ++ [(nkey, value)] else list
  | [] => list

/-- Terminal emission loop of `trie_search` (`src/hwdb.rs` lines
334-343): for each value record, read key and value from the string pool
and pass them to the property sink, in stored order. -/
def emitValues (buf : Buf) (vals : List TrieValueEntry) (list : UList) : UList :=
  vals.foldl (fun l v => addProperty l (trieString buf v.key_off) (trieString buf v.value_off)) list

/-- Is `c` one of the three glob metacharacter bytes `*`, `?`, `[`? -/
def isGlob (c : Nat) : Bool := c == 42 || c == 63 || c == 91

/-- Result of scanning a node's string against the query. -/
inductive ScanRes where
  | glob (p : Nat)
  | mismatch
  | through
deriving DecidableEq

/-- Translation of the character scan in `trie_search` (`src/hwdb.rs`
lines 301-308): walk the node's string at positions `p, p+1, ...`; a glob
metacharacter switches to glob mode at that position; otherwise, when the
query's character count exceeds `i` and the character at `i + p` (none
when past the end) differs from the scanned character, the branch
mismatches; otherwise the scan continues. -/
def scanPfx (q : Chars) (i : Nat) : List Nat → Nat → ScanRes
  | [], _ => .through
  | c :: rest, p =>
    if isGlob c then .glob p
    else if i < q.length ∧ q.get? (i + p) ≠ some c then .mismatch
    else scanPfx q i rest (p + 1)

/-- Query exhaustion test of `trie_search` (`src/hwdb.rs` line 334): the
character at index `i` is NUL, or `i` reaches the character count, or `i`
reaches the byte length. -/
def exhausted (q : Chars) (i : Nat) : Bool :=
  q.get? i == some 0 || decide (q.length ≤ i) || decide (utf8Len q ≤ i)

/-- Result of one iteration of the search loop: either the whole search
returns (final list and optional error), or the loop continues with a new
line buffer, query index, list and current node (paired with its ghost
offset). -/
inductive StepRes where
  | done (list : UList) (e : Option Err)
  | next (lb : LineBuf) (i : Nat) (list : UList) (node : Option (Nat × TrieEntry))
deriving DecidableEq

/-- Tail of one search-loop iteration after the `[` glob descent
(`src/hwdb.rs` lines 334-346): terminal emission when the query is
exhausted, then the literal descent on the query byte at `i` (out of
range read as 0), advancing `i` by one. -/
def stepTerm (sz : Sizes) (buf : Buf) (q : Chars) (lb : LineBuf) (i : Nat)
    (list : UList) (n : TrieEntry) : StepRes :=
  let l' := if exhausted q i then emitValues buf n.values list else list
  .next lb (i + 1) l' (n.lookupChildOff sz buf ((strBytes q).getD i 0))

/-- The `[` glob descent of `trie_search` (`src/hwdb.rs` lines 327-332):
push the label, run the glob matcher on the child with glob position 0
and the byte tail of the query, pop the label; errors return from the
whole search. -/
def stepBr (fnm : Fnm) (sz : Sizes) (buf : Buf) (q : Chars) (lb : LineBuf) (i : Nat)
    (list : UList) (n : TrieEntry) : StepRes :=
  match n.lookupChild sz buf 91 with
  | none => stepTerm sz buf q lb i list n
  | some child =>
    match lb.addChar 91 with
    | .error e => .done list (some e)
    | .ok lb1 =>
      match fnm lb1 buf child 0 ((strBytes q).drop i) list with
      | (l1, some e) => .done l1 (some e)
      | (l1, none) => stepTerm sz buf q lb1.removeChar i l1 n

/-- The `?` glob descent of `trie_search` (`src/hwdb.rs` lines 320-325). -/
def stepQn (fnm : Fnm) (sz : Sizes) (buf : Buf) (q : Chars) (lb : LineBuf) (i : Nat)
    (list : UList) (n : TrieEntry) : StepRes :=
  match n.lookupChild sz buf 63 with
  | none => stepBr fnm sz buf q lb i list n
  | some child =>
    match lb.addChar 63 with
    | .error e => .done list (some e)
    | .ok lb1 =>
      match fnm lb1 buf child 0 ((strBytes q).drop i) list with
      | (l1, some e) => .done l1 (some e)
      | (l1, none) => stepBr fnm sz buf q lb1.removeChar i l1 n

/-- The `*` glob descent of `trie_search` (`src/hwdb.rs` lines 313-318)
followed by the rest of the iteration. -/
def stepRest (fnm : Fnm) (sz : Sizes) (buf : Buf) (q : Chars) (lb : LineBuf) (i : Nat)
    (list : UList) (n : TrieEntry) : StepRes :=
  match n.lookupChild sz buf 42 with
  | none => stepQn fnm sz buf q lb i list n
  | some child =>
    match lb.addChar 42 with
    | .error e => .done list (some e)
    | .ok lb1 =>
      match fnm lb1 buf child 0 ((strBytes q).drop i) list with
      | (l1, some e) => .done l1 (some e)
      | (l1, none) => stepQn fnm sz buf q lb1.removeChar i l1 n

/-- One iteration of the `trie_search` loop (`src/hwdb.rs` lines
297-347): consume the node's string when `prefix_off` is nonzero (a glob
character hands the whole search to the glob matcher; a mismatch returns
success with nothing added; otherwise `i` advances by the character count
of the string), then the glob descents, terminal emission and literal
descent. -/
def trieStep (fnm : Fnm) (sz : Sizes) (buf : Buf) (q : Chars) (lb : LineBuf) (i : Nat)
    (list : UList) (n : TrieEntry) : StepRes :=
  if 0 < n.node.prefix_off then
    let ts := trieString buf n.node.prefix_off
    match scanPfx q i ts 0 with
    | .glob p =>
      let r := fnm lb buf n p ((strBytes q).drop (i + p)) list
      .done r.1 r.2
    | .mismatch => .done list none
    | .through => stepRest fnm sz buf q lb (i + ts.length) list n
  else stepRest fnm sz buf q lb i list n

/-- The `while let` loop of `trie_search` (`src/hwdb.rs` lines 297-348),
with explicit fuel; `none` means the fuel ran out before the walk
finished. -/
def trieLoop (fnm : Fnm) (sz : Sizes) (buf : Buf) (q : Chars) :
    Nat → Option (Nat × TrieEntry) → LineBuf → Nat → UList → Option (UList × Option Err)
  | _, none, _, _, list => some (list, none)
  | 0, some _, _, _, _ => none
  | fuel + 1, some (_, n), lb, i, list =>
    match trieStep fnm sz buf q lb i list n with
    | .done l e => some (l, e)
    | .next lb' i' l' node' => trieLoop fnm sz buf q fuel node' lb' i' l'

/-- Translation of `UdevHwdb::trie_search` (`src/hwdb.rs` lines 278-351):
start from the root node when `nodes_root_off` is inside the buffer and
decodes (decode failures and out-of-range roots silently yield no node),
then run the walk loop from index 0 with an empty line buffer. -/
def trieSearchFueled (fnm : Fnm) (sz : Sizes) (head : TrieHeader) (buf : Buf)
    (q : Chars) (list : UList) (fuel : Nat) : Option (UList × Option Err) :=
  let root := head.nodes_root_off
  let node : Option (Nat × TrieEntry) :=
    if root < buf.length then
      match TrieEntry.tryFrom sz (buf.drop root) with
      | .ok e => some (root, e)
      | .error _ => none
    else none
  trieLoop fnm sz buf q fuel node LineBuf.empty 0 list

/-- The fields of `UdevHwdb` relevant to lookups (`src/hwdb.rs` lines
67-74); the opaque `udev` collaborator is omitted, paths are opaque byte
strings. -/
structure Hwdb where
  bin_paths : List Nat
  hwdb_path : List Nat
  head : TrieHeader
  properties_list : UList
deriving DecidableEq

/-- Translation of `UdevHwdb::get_properties_list_entry` (`src/hwdb.rs`
lines 171-221): re-read the database file (its bytes are `file`, `none`
when the open or read fails, which returns an `hwdb-lookup` error with
the handle untouched), clear the property list, run the trie search, and
return the populated list; search errors surface as `hwdb-lookup` with
the partially populated list left in the handle.  The `flags` argument is
unused as in the source; the search runs with the given fuel, `none`
meaning the fuel ran out. -/
def getPropertiesListEntry (fnm : Fnm) (sz : Sizes) (fuel : Nat) (h : Hwdb)
    (file : Option Buf) (modalias : Chars) (_flags : Nat) :
    Option (Hwdb × Except Err UList) :=
  match file with
  | none => some (h, .error .lookup)
  | some buf =>
    match trieSearchFueled fnm sz h.head buf modalias [] fuel with
    | none => none
    | some (list', none) => some ({h with properties_list := list'}, .ok list')
    | some (list', some _) => some ({h with properties_list := list'}, .error .lookup)

/-- A buffer shorter than the declared node size makes the whole entry
decode fail with the bounds error. -/
lemma trieEntry_tryFrom_short (sz : Sizes) (val : Buf) (h : val.length < sz.node_size) :
    TrieEntry.tryFrom sz val = .error .bounds := by
  have h' : ¬ sz.node_size ≤ val.length := by omega
  simp [TrieEntry.tryFrom, TrieNode.tryFrom, h']

/-- Little-endian 64-bit encoding of a number, for building concrete
buffers. -/
def le64 (n : Nat) : List Nat :=
  [n % 256, n / 256 % 256, n / 65536 % 256, n / 16777216 % 256,
   n / 4294967296 % 256, n / 1099511627776 % 256, n / 281474976710656 % 256,
   n / 72057594037927936 % 256]

/-- A root-offset-zero header whose record sizes are the defaults, used
for concrete runs over small node-only buffers. -/
def hdC1 : TrieHeader := ⟨hwdbSig, 0, 24, 80, 24, 16, 32, 0, 24, 0⟩

/-- A 24-byte buffer holding one node record that declares one child
entry; the child table range `[24, 40)` is not contained in the buffer. -/
def bufC1 : Buf :=
  [0, 0, 0, 0, 0, 0, 0, 0, 1, 0, 0, 0, 0, 0, 0, 0, 0, 0, 0, 0, 0, 0, 0, 0]

/-- An 80-byte database file that is just a valid header whose
`nodes_root_off` (1000) lies far past the end of the file. -/
def hdrBufC2 : Buf :=
  hwdbSig ++ le64 0 ++ le64 80 ++ le64 80 ++ le64 24 ++ le64 16 ++ le64 32 ++
    le64 0 ++ le64 0 ++ le64 1000

/-- The header of `hdrBufC2`. -/
def hdC2 : TrieHeader := ⟨hwdbSig, 0, 80, 80, 24, 16, 32, 0, 0, 1000⟩

/-- C2 counterexample: for the fabricated database `hdrBufC2`, whose
`nodes_root_off` (1000) is not less than the 80-byte buffer length, the
header decodes (so construction succeeds), but the lookup returns success
with an empty property list instead of an `hwdb-bounds` error. -/
theorem c2_counterexample :
    TrieHeader.tryFrom hdrBufC2 = .ok hdC2 ∧
    hdrBufC2.length ≤ hdC2.nodes_root_off ∧
    trieSearchFueled fnmTriv hdC2.sizes hdC2 hdrBufC2 [97] [] 5 = some ([], none) := by
  refine ⟨rfl, by decide, rfl⟩

/-- C2 amended: a root offset at or past the end of the buffer does not
raise `hwdb-bounds`; the search silently starts with no node and returns
success with the property list unchanged.  Likewise, during the walk a
child whose `child_off` is outside the buffer makes `lookup_child` return
`None` (silently ending that branch) rather than raising an error. -/
theorem c2_out_of_range_silent :
    (∀ (fnm : Fnm) (sz : Sizes) (head : TrieHeader) (buf : Buf) (q : Chars)
      (list : UList) (fuel : Nat), buf.length ≤ head.nodes_root_off →
      trieSearchFueled fnm sz head buf q list fuel = some (list, none)) ∧
    (∀ (n : TrieEntry) (sz : Sizes) (buf : Buf) (c : Nat) (child : TrieChildEntry),
      n.children.find? (fun ch => ch.c == c) = some child →
      buf.length ≤ child.child_off →
      n.lookupChild sz buf c = none) := by
  constructor
  · intro fnm sz head buf q list fuel h
    have h' : ¬ head.nodes_root_off < buf.length := by omega
    simp only [trieSearchFueled, if_neg h']
    cases fuel <;> rfl
  · intro n sz buf c child hfind h
    have h' : ¬ child.child_off < buf.length := by omega
    simp [TrieEntry.lookupChild, TrieEntry.lookupChildOff, hfind, h']

/-- C2 witness: the amended theorem applied to the empty buffer with the
header `hdC2`, and to a node with one child edge pointing at offset 500
of the empty buffer. -/
theorem c2_witness :
    trieSearchFueled fnmTriv szD hdC2 [] [97] [([], [])] 3 = some ([([], [])], none) ∧
    TrieEntry.lookupChild ⟨⟨0, 1, 0⟩, [⟨97, 500⟩], []⟩ szD [] 97 = none :=
  ⟨c2_out_of_range_silent.1 fnmTriv szD hdC2 [] [97] [([], [])] 3 (by decide),
   c2_out_of_range_silent.2 ⟨⟨0, 1, 0⟩, [⟨97, 500⟩], []⟩ szD [] 97 ⟨97, 500⟩ rfl (by decide)⟩

/-- Congruence for the error-propagating map. -/
lemma mapE_congr {α : Type} (f g : Nat → Except Err α) (l : List Nat)
    (h : ∀ x ∈ l, f x = g x) : mapE f l = mapE g l := by
  induction l with
  | nil => rfl
  | cons x xs ih =>
    simp only [mapE, h x (by simp)]
    rw [ih (fun y hy => h y (by simp [hy]))]

/-- Record sizes declaring a larger node record than the Rust struct. -/
def szC3 : Sizes := ⟨32, 16, 32⟩

/-- A 48-byte buffer whose node declares one child; under the default
24-byte node stride the child record starts at offset 24 (label byte 7),
while a header-declared `node_size` of 32 would place it at offset 32
(label byte 9). -/
def bufC3 : Buf :=
  [0, 0, 0, 0, 0, 0, 0, 0, 1, 0, 0, 0, 0, 0, 0, 0, 0, 0, 0, 0, 0, 0, 0, 0,
   7, 0, 0, 0, 0, 0, 0, 0, 9, 0, 0, 0, 0, 0, 0, 0, 0, 0, 0, 0, 0, 0, 0, 0]

/-- C3 counterexample: with record sizes whose `node_size` is 32 (different
from the built-in struct size 24), the assembled child entry takes its
label from byte 24 (value 7), not from byte `node_size` = 32 (value 9):
the assembler decodes children starting at `off + 24` with stride 16, not
at `off + header.node_size`. -/
theorem c3_counterexample :
    szC3.node_size = 32 ∧
    TrieEntry.tryFrom szC3 bufC3 = .ok ⟨⟨0, 1, 0⟩, [⟨7, 9⟩], []⟩ ∧
    bufC3.getD 24 0 = 7 ∧ bufC3.getD 32 0 = 9 :=
  ⟨rfl, rfl, rfl, rfl⟩

/-- C3 amended: `UdevHwdb::new` publishes the header record sizes into
process-level state, but the trie entry assembler does not use them as
strides — it uses the built-in struct sizes (node 24, child 16, value 32).
Whenever the header-declared sizes still pass the per-record bounds
checks, the assembled entry is identical to the one assembled under the
default sizes: the declared sizes influence nothing but those checks. -/
theorem c3_fixed_strides : ∀ (sz : Sizes) (val : Buf),
    sz.child_entry_size ≤ 16 → sz.value_entry_size ≤ 32 →
    sz.node_size ≤ val.length → 24 ≤ val.length →
    TrieEntry.tryFrom sz val = TrieEntry.tryFrom szD val := by
  intro sz val h16 h32 hn h24
  have hnode1 : TrieNode.tryFrom sz val = .ok ⟨readLE64 val 0, val.getD 8 0, readLE64 val 16⟩ := by
    simp [TrieNode.tryFrom, hn]
  have hnode2 : TrieNode.tryFrom szD val = .ok ⟨readLE64 val 0, val.getD 8 0, readLE64 val 16⟩ := by
    simp [TrieNode.tryFrom, szD, h24]
  have hchunk16 : ∀ a, a + 16 ≤ val.length → ((val.drop a).take 16).length = 16 := by
    intro a ha
    simp [List.length_take, List.length_drop]
    omega
  have hchunk32 : ∀ a, a + 32 ≤ val.length → ((val.drop a).take 32).length = 32 := by
    intro a ha
    simp [List.length_take, List.length_drop]
    omega
  have hch : (if 24 ≤ 24 + (val.getD 8 0 * 16 - 1) ∧ 24 + (val.getD 8 0 * 16 - 1) < val.length ∧
        0 < val.getD 8 0 then
      mapE (fun k => TrieChildEntry.tryFrom sz ((val.drop (24 + 16 * k)).take 16))
        (List.range (val.getD 8 0))
    else .ok []) =
      (if 24 ≤ 24 + (val.getD 8 0 * 16 - 1) ∧ 24 + (val.getD 8 0 * 16 - 1) < val.length ∧
        0 < val.getD 8 0 then
      mapE (fun k => TrieChildEntry.tryFrom szD ((val.drop (24 + 16 * k)).take 16))
        (List.range (val.getD 8 0))
    else .ok []) := by
    split
    · next hcond =>
      apply mapE_congr
      intro k hk
      rw [List.mem_range] at hk
      have hlen : ((val.drop (24 + 16 * k)).take 16).length = 16 := by
        apply hchunk16
        rcases hcond with ⟨-, h2, h3⟩
        omega
      simp [TrieChildEntry.tryFrom, hlen, h16, szD]
    · rfl
  have hv : ∀ (cl : Nat),
      (if 24 + 16 * cl ≤ 24 + 16 * cl + (readLE64 val 16 * 32 - 1) ∧
          24 + 16 * cl + (readLE64 val 16 * 32 - 1) < val.length ∧ 0 < readLE64 val 16 then
        mapE (fun k => TrieValueEntry.tryFrom sz ((val.drop (24 + 16 * cl + 32 * k)).take 32))
          (List.range (readLE64 val 16))
      else .ok []) =
        (if 24 + 16 * cl ≤ 24 + 16 * cl + (readLE64 val 16 * 32 - 1) ∧
          24 + 16 * cl + (readLE64 val 16 * 32 - 1) < val.length ∧ 0 < readLE64 val 16 then
        mapE (fun k => TrieValueEntry.tryFrom szD ((val.drop (24 + 16 * cl + 32 * k)).take 32))
          (List.range (readLE64 val 16))
      else .ok []) := by
    intro cl
    split
    · next hcond =>
      apply mapE_congr
      intro k hk
      rw [List.mem_range] at hk
      have hlen : ((val.drop (24 + 16 * cl + 32 * k)).take 32).length = 32 := by
        apply hchunk32
        rcases hcond with ⟨-, h2, h3⟩
        omega
      simp [TrieValueEntry.tryFrom, hlen, h32, szD]
    · rfl
  simp only [TrieEntry.tryFrom, hnode1, hnode2]
  rw [hch]
  rcases hres : (if 24 ≤ 24 + (val.getD 8 0 * 16 - 1) ∧ 24 + (val.getD 8 0 * 16 - 1) < val.length ∧
        0 < val.getD 8 0 then
      mapE (fun k => TrieChildEntry.tryFrom szD ((val.drop (24 + 16 * k)).take 16))
        (List.range (val.getD 8 0))
    else .ok []) with e | children
  · rfl
  · simp only [hv children.length]

/-- C3 witness: the amended theorem applied to `szC3` and `bufC3`. -/
theorem c3_witness :
    (szC3.child_entry_size ≤ 16 ∧ szC3.value_entry_size ≤ 32 ∧
      szC3.node_size ≤ bufC3.length ∧ 24 ≤ bufC3.length) ∧
    TrieEntry.tryFrom szC3 bufC3 = TrieEntry.tryFrom szD bufC3 :=
  ⟨by decide, c3_fixed_strides szC3 bufC3 (by decide) (by decide) (by decide) (by decide)⟩

/-- Membership in the sink after one `add_property` call: either the pair
was already there, or its key is the forwarded key with the single leading
space reattached. -/
lemma mem_addProperty (list : UList) (key value : List Nat) (p : List Nat × List Nat)
    (h : p ∈ addProperty list key value) :
    p ∈ list ∨ (key = 32 :: p.1 ∧ value = p.2) := by
  cases key with
  | nil => exact Or.inl h
  | cons k ks =>
    by_cases hk : k = 32
    · subst hk
      simp only [addProperty, if_pos rfl] at h
      rcases List.mem_append.mp h with h' | h'
      · exact Or.inl h'
      · rcases List.mem_singleton.mp h' with rfl
        exact Or.inr ⟨rfl, rfl⟩
    · simp only [addProperty, if_neg hk] at h
      exact Or.inl h

/-- Every pair present after the terminal-emission loop was either
already in the list or originates from a value record whose key string
starts with an ASCII space. -/
lemma mem_emitValues (buf : Buf) (vals : List TrieValueEntry) (list : UList)
    (p : List Nat × List Nat) (h : p ∈ emitValues buf vals list) :
    p ∈ list ∨ ∃ v ∈ vals, trieString buf v.key_off = 32 :: p.1 ∧
      trieString buf v.value_off = p.2 := by
  induction vals generalizing list with
  | nil => exact Or.inl h
  | cons v vs ih =>
    have h' := ih (addProperty list (trieString buf v.key_off) (trieString buf v.value_off)) h
    rcases h' with h' | ⟨w, hw, hkey, hval⟩
    · rcases mem_addProperty _ _ _ _ h' with h'' | ⟨hkey, hval⟩
      · exact Or.inl h''
      · exact Or.inr ⟨v, by simp, hkey, hval⟩
    · exact Or.inr ⟨w, by simp [hw], hkey, hval⟩

/-- C7: a key beginning with a single ASCII space is forwarded to the
property list with that one space removed; any other key is silently
dropped while the call still succeeds (the operation is total).
Consequently every pair the terminal-emission loop adds comes from a
value record whose key string in the database starts with a space, and
appears with that space removed. -/
theorem c7_add_property :
    (∀ (list : UList) (key value nkey : List Nat),
      key = 32 :: nkey → addProperty list key value = list ++ [(nkey, value)]) ∧
    (∀ (list : UList) (key value : List Nat),
      key.head? ≠ some 32 → addProperty list key value = list) ∧
    (∀ (buf : Buf) (vals : List TrieValueEntry) (list : UList) (p : List Nat × List Nat),
      p ∈ emitValues buf vals list →
      p ∈ list ∨ ∃ v ∈ vals, trieString buf v.key_off = 32 :: p.1 ∧
        trieString buf v.value_off = p.2) := by
  refine ⟨?_, ?_, mem_emitValues⟩
  · intro list key value nkey h
    subst h
    simp [addProperty]
  · intro list key value h
    cases key with
    | nil => rfl
    | cons k ks =>
      have hk : k ≠ 32 := by
        intro hk
        exact h (by simp [hk])
      simp [addProperty, hk]

/-- C7 witness: the three parts applied to concrete keys — a space-headed
key is stripped and appended, a space-less key is dropped, and an emitted
pair is traced back to its value record. -/
theorem c7_witness :
    addProperty [] [32, 75] [86] = [([75], [86])] ∧
    addProperty [] [75, 75] [86] = [] ∧
    (([75], [86]) ∈ ([] : UList) ∨ ∃ v ∈ [(⟨0, 3⟩ : TrieValueEntry)],
      trieString [32, 75, 0, 86, 0] v.key_off = 32 :: [75] ∧
      trieString [32, 75, 0, 86, 0] v.value_off = [86]) :=
  ⟨c7_add_property.1 [] [32, 75] [86] [75] rfl,
   c7_add_property.2.1 [] [75, 75] [86] (by decide),
   c7_add_property.2.2 [32, 75, 0, 86, 0] [⟨0, 3⟩] [] ([75], [86]) (by decide)⟩

/-- A scan over a glob-free string never enters glob mode. -/
lemma scanPfx_no_glob (q : Chars) (i : Nat) :
    ∀ (ts : List Nat) (p0 p : Nat), (∀ c ∈ ts, isGlob c = false) →
    scanPfx q i ts p0 ≠ .glob p := by
  intro ts
  induction ts with
  | nil => intro p0 p _ h; exact absurd h (by simp [scanPfx])
  | cons c rest ih =>
    intro p0 p hglob h
    have hc : isGlob c = false := hglob c (by simp)
    simp only [scanPfx, hc, Bool.false_eq_true, if_false] at h
    split at h
    · exact absurd h (by simp)
    · exact ih (p0 + 1) p (fun d hd => hglob d (by simp [hd])) h

/-- Characterisation of the mismatch outcome of the glob-free scan: the
branch mismatches exactly when the query's character count exceeds `i`
and some scanned position disagrees with the query character at the
shifted index (disagreement includes running past the end of the
query). -/
lemma scanPfx_mismatch_iff (q : Chars) (i : Nat) :
    ∀ (ts : List Nat) (p0 : Nat), (∀ c ∈ ts, isGlob c = false) →
    (scanPfx q i ts p0 = .mismatch ↔
      i < q.length ∧ ∃ j < ts.length, q.get? (i + p0 + j) ≠ some (ts.getD j 0)) := by
  intro ts
  induction ts with
  | nil => intro p0 _; simp [scanPfx]
  | cons c rest ih =>
    intro p0 hglob
    have hc : isGlob c = false := hglob c (by simp)
    simp only [scanPfx, hc, Bool.false_eq_true, if_false]
    by_cases hm : i < q.length ∧ q.get? (i + p0) ≠ some c
    · rw [if_pos hm]
      constructor
      · intro _
        exact ⟨hm.1, 0, by simp, by simpa using hm.2⟩
      · intro _; rfl
    · rw [if_neg hm]
      rw [ih (p0 + 1) (fun d hd => hglob d (by simp [hd]))]
      constructor
      · rintro ⟨hq, j, hj, hne⟩
        refine ⟨hq, j + 1, by simpa using hj, ?_⟩
        have harith : i + p0 + (j + 1) = i + (p0 + 1) + j := by omega
        rw [harith]
        simpa using hne
      · rintro ⟨hq, j, hj, hne⟩
        cases j with
        | zero =>
          exfalso
          apply hm
          exact ⟨hq, by simpa using hne⟩
        | succ j' =>
          refine ⟨hq, j', by simp only [List.length_cons] at hj; omega, ?_⟩
          have harith : i + (p0 + 1) + j' = i + p0 + (j' + 1) := by omega
          rw [harith]
          simpa using hne

/-- A 104-byte buffer: 100 zero bytes, then the pool string "abc". -/
def buf5 : Buf := List.replicate 100 0 ++ [97, 98, 99, 0]

/-- A node whose string is "abc" at pool offset 100, with no children and
no values. -/
def n5 : TrieEntry := ⟨⟨100, 0, 0⟩, [], []⟩

/-- C5 counterexample: scanning the glob-free node string "abc" against
the query "ab" starting at `i = 0`, the walker terminates the branch
(returning success with nothing added), yet there is no scanned position
`p` with `0 + p < len(query)` and `P[p] ≠ query[0 + p]` — the walker
stops because position 2 runs past the end of the query, which the claim
says should let the scan continue. -/
theorem c5_counterexample :
    trieStep fnmTriv szD buf5 [97, 98] LineBuf.empty 0 [] n5 = .done [] none ∧
    scanPfx [97, 98] 0 (trieString buf5 100) 0 = .mismatch ∧
    (∀ p < 3, ¬(0 + p < (strBytes [97, 98]).length ∧
      (trieString buf5 100).getD p 0 ≠ (strBytes [97, 98]).getD (0 + p) 0)) := by
  refine ⟨rfl, rfl, by decide⟩

/-- C5 amended: while scanning a glob-free node string `P`, the walker
terminates the branch exactly when `i` is less than the query's character
count and some scanned position `p` has a query character at `i + p`
different from `P[p]` — where running past the end of the query counts as
different (the scan does not continue merely because the query is
exhausted at a compared position; it continues only when the query was
already exhausted at the start of the scan, since the mismatch test is
guarded by `i < char_count(query)`).  When no position terminates the
branch the scan falls through, and the walker proceeds with `i` advanced
by the character count of `P`. -/
theorem c5_prefix_scan :
    (∀ (q : Chars) (i : Nat) (ts : List Nat), (∀ c ∈ ts, isGlob c = false) →
      (scanPfx q i ts 0 = .mismatch ↔
        i < q.length ∧ ∃ j < ts.length, q.get? (i + j) ≠ some (ts.getD j 0))) ∧
    (∀ (q : Chars) (i : Nat) (ts : List Nat), (∀ c ∈ ts, isGlob c = false) →
      scanPfx q i ts 0 ≠ .mismatch → scanPfx q i ts 0 = .through) ∧
    (∀ (fnm : Fnm) (sz : Sizes) (buf : Buf) (q : Chars) (lb : LineBuf) (i : Nat)
      (list : UList) (n : TrieEntry), 0 < n.node.prefix_off →
      scanPfx q i (trieString buf n.node.prefix_off) 0 = .through →
      trieStep fnm sz buf q lb i list n =
        stepRest fnm sz buf q lb (i + (trieString buf n.node.prefix_off).length) list n) := by
  refine ⟨?_, ?_, ?_⟩
  · intro q i ts h
    have := scanPfx_mismatch_iff q i ts 0 h
    simpa using this
  · intro q i ts h hnm
    cases hres : scanPfx q i ts 0 with
    | glob p => exact absurd hres (scanPfx_no_glob q i ts 0 p h)
    | mismatch => exact absurd hres hnm
    | through => rfl
  · intro fnm sz buf q lb i list n hpos hthrough
    simp only [trieStep, if_pos hpos, hthrough]

/-- C5 witness: the three parts applied concretely — "abc" against "ab"
mismatches via position 2, "a" against "a" falls through, and a node with
string "abc" against "abcd" advances the index by 3 before the descents. -/
theorem c5_witness :
    scanPfx [97, 98] 0 [97, 98, 99] 0 = .mismatch ∧
    scanPfx [97] 0 [97] 0 = .through ∧
    trieStep fnmTriv szD buf5 [97, 98, 99, 100] LineBuf.empty 0 [] n5 =
      stepRest fnmTriv szD buf5 [97, 98, 99, 100] LineBuf.empty
        (0 + (trieString buf5 100).length) [] n5 :=
  ⟨(c5_prefix_scan.1 [97, 98] 0 [97, 98, 99] (by decide)).mpr
     ⟨by decide, 2, by decide, by decide⟩,
   c5_prefix_scan.2.1 [97] 0 [97] (by decide) (by decide),
   c5_prefix_scan.2.2 fnmTriv szD buf5 [97, 98, 99, 100] LineBuf.empty 0 [] n5
     (by decide) rfl⟩

/-- One `add_property` call appends exactly the stripped pair when the key
is space-headed, and nothing otherwise. -/
lemma addProperty_eq (list : UList) (key value : List Nat) :
    addProperty list key value =
      list ++ (if key.head? = some 32 then [(key.tail, value)] else []) := by
  cases key with
  | nil => simp [addProperty]
  | cons k ks =>
    by_cases hk : k = 32
    · subst hk
      simp [addProperty]
    · simp [addProperty, hk]

/-- Closed form of the terminal-emission loop: the sink is extended, in
stored order, by the stripped pairs of exactly those value records whose
key string starts with an ASCII space. -/
lemma emitValues_eq (buf : Buf) (vals : List TrieValueEntry) (list : UList) :
    emitValues buf vals list = list ++ vals.filterMap (fun v =>
      if (trieString buf v.key_off).head? = some 32
        then some ((trieString buf v.key_off).tail, trieString buf v.value_off)
        else none) := by
  induction vals generalizing list with
  | nil => simp [emitValues]
  | cons v vs ih =>
    have hstep : emitValues buf (v :: vs) list =
        emitValues buf vs (addProperty list (trieString buf v.key_off) (trieString buf v.value_off)) := rfl
    rw [hstep, ih, addProperty_eq, List.filterMap_cons]
    by_cases hk : (trieString buf v.key_off).head? = some 32
    · simp [hk]
    · simp [hk]

/-- Header for the two-node database `bufC4`, root at offset 0. -/
def hdC4 : TrieHeader := ⟨hwdbSig, 0, 101, 80, 24, 16, 32, 5, 96, 0⟩

/-- A 101-byte database: a root node with one child edge labelled 0xC3
(the first UTF-8 byte of the two-byte character U+00E9) leading to a node
at offset 40 with one value record whose key is " K" and value "V". -/
def bufC4 : Buf :=
  [0, 0, 0, 0, 0, 0, 0, 0, 1, 0, 0, 0, 0, 0, 0, 0, 0, 0, 0, 0, 0, 0, 0, 0] ++
  [195, 0, 0, 0, 0, 0, 0, 0] ++ le64 40 ++
  [0, 0, 0, 0, 0, 0, 0, 0, 0, 0, 0, 0, 0, 0, 0, 0] ++ le64 1 ++
  le64 96 ++ le64 99 ++ [0, 0, 0, 0, 0, 0, 0, 0, 0, 0, 0, 0, 0, 0, 0, 0] ++
  [32, 75, 0] ++ [86, 0]

/-- C4 counterexample: looking up the one-character query U+00E9 (UTF-8
bytes [195, 169]) in `bufC4`, the walker reaches the node at offset 40
with index `i = 1` and emits its value — the pair appears in the result —
although the query is not byte-exhausted there: `i = 1` is less than the
byte length 2 and the byte at index 1 is 169, not NUL.  The walker treats
the query as exhausted because `i` reached the character count 1. -/
theorem c4_counterexample :
    trieSearchFueled fnmTriv szD hdC4 bufC4 [233] [] 3 = some ([([75], [86])], none) ∧
    (1 < (strBytes [233]).length ∧ (strBytes [233]).getD 1 0 ≠ 0) ∧
    stepRest fnmTriv szD bufC4 [233] LineBuf.empty 1 [] ⟨⟨0, 0, 1⟩, [], [⟨96, 99⟩]⟩ =
      .next LineBuf.empty 2 [([75], [86])] none := by
  refine ⟨rfl, by decide, rfl⟩

/-- C4 amended: at a node with no glob child edges, the walker emits the
node's value records to the property sink if and only if the query is
exhausted in the source's sense: the character at index `i` is NUL, or
`i` has reached the query's character count, or `i` has reached the
query's byte length (for multi-byte queries the character count is
reached first, so emission can occur at an index that is not
byte-exhausted).  The emitted values extend the list in stored order,
space-headed keys stripped, others dropped. -/
theorem c4_terminal_emission :
    (∀ (q : Chars) (i : Nat),
      exhausted q i = true ↔ (q.get? i = some 0 ∨ q.length ≤ i ∨ utf8Len q ≤ i)) ∧
    (∀ (fnm : Fnm) (sz : Sizes) (buf : Buf) (q : Chars) (lb : LineBuf) (i : Nat)
      (list : UList) (n : TrieEntry),
      n.lookupChild sz buf 42 = none → n.lookupChild sz buf 63 = none →
      n.lookupChild sz buf 91 = none →
      stepRest fnm sz buf q lb i list n =
        .next lb (i + 1) (if exhausted q i then emitValues buf n.values list else list)
          (n.lookupChildOff sz buf ((strBytes q).getD i 0))) ∧
    (∀ (buf : Buf) (vals : List TrieValueEntry) (list : UList),
      emitValues buf vals list = list ++ vals.filterMap (fun v =>
        if (trieString buf v.key_off).head? = some 32
          then some ((trieString buf v.key_off).tail, trieString buf v.value_off)
          else none)) := by
  refine ⟨?_, ?_, emitValues_eq⟩
  · intro q i
    simp [exhausted, or_assoc]
  · intro fnm sz buf q lb i list n h42 h63 h91
    simp only [stepRest, h42, stepQn, h63, stepBr, h91, stepTerm]

/-- C4 witness: the amended theorem applied concretely — the query "\0"
is exhausted at 0, the node at offset 40 of `bufC4` under query U+00E9 at
index 1 emits via the step equation, and the emission closed form on that
node's single value record. -/
theorem c4_witness :
    exhausted [0] 0 = true ∧
    stepRest fnmTriv szD bufC4 [233] LineBuf.empty 1 [] ⟨⟨0, 0, 1⟩, [], [⟨96, 99⟩]⟩ =
      .next LineBuf.empty 2
        (if exhausted [233] 1 then emitValues bufC4 [⟨96, 99⟩] [] else [])
        (TrieEntry.lookupChildOff ⟨⟨0, 0, 1⟩, [], [⟨96, 99⟩]⟩ szD bufC4
          ((strBytes [233]).getD 1 0)) ∧
    emitValues bufC4 [⟨96, 99⟩] [] = [] ++ ([⟨96, 99⟩] : List TrieValueEntry).filterMap (fun v =>
      if (trieString bufC4 v.key_off).head? = some 32
        then some ((trieString bufC4 v.key_off).tail, trieString bufC4 v.value_off)
        else none) :=
  ⟨(c4_terminal_emission.1 [0] 0).mpr (Or.inl rfl),
   c4_terminal_emission.2.1 fnmTriv szD bufC4 [233] LineBuf.empty 1 []
     ⟨⟨0, 0, 1⟩, [], [⟨96, 99⟩]⟩ rfl rfl rfl,
   c4_terminal_emission.2.2 bufC4 [⟨96, 99⟩] []⟩

/-- Popping right after a successful push restores the line buffer. -/
lemma addChar_removeChar (lb lb' : LineBuf) (c : Nat) (h : lb.addChar c = .ok lb') :
    lb'.removeChar = lb := by
  unfold LineBuf.addChar at h
  split at h
  · cases h
    simp [LineBuf.removeChar, List.dropLast_concat]
  · cases h

/-- One speculative glob descent, stated as in spec section 4.5: if the
node has a child edge with the given label, push the label, run the glob
matcher on that child with glob position 0 and the byte tail of the query
at `i`, then pop (the pop is reflected by the caller reusing the original
line buffer). -/
def globDescend (fnm : Fnm) (sz : Sizes) (buf : Buf) (q : Chars) (lb : LineBuf)
    (i : Nat) (lbl : Nat) (list : UList) (n : TrieEntry) : UList × Option Err :=
  match n.lookupChild sz buf lbl with
  | none => (list, none)
  | some child =>
    match lb.addChar lbl with
    | .error e => (list, some e)
    | .ok lb1 => fnm lb1 buf child 0 ((strBytes q).drop i) list

/-- The `[` stage of the loop iteration is the `[` glob descent followed
by terminal emission and literal descent. -/
lemma stepBr_eq (fnm : Fnm) (sz : Sizes) (buf : Buf) (q : Chars) (lb : LineBuf)
    (i : Nat) (list : UList) (n : TrieEntry) :
    stepBr fnm sz buf q lb i list n =
      match globDescend fnm sz buf q lb i 91 list n with
      | (l, some e) => .done l (some e)
      | (l, none) => stepTerm sz buf q lb i l n := by
  unfold stepBr globDescend
  cases hlc : n.lookupChild sz buf 91 with
  | none => rfl
  | some child =>
    cases hac : lb.addChar 91 with
    | error e => rfl
    | ok lb1 =>
      have hrc : lb1.removeChar = lb := addChar_removeChar lb lb1 91 hac
      simp only [hrc]

/-- The `?` stage of the loop iteration is the `?` glob descent followed
by the `[` stage. -/
lemma stepQn_eq (fnm : Fnm) (sz : Sizes) (buf : Buf) (q : Chars) (lb : LineBuf)
    (i : Nat) (list : UList) (n : TrieEntry) :
    stepQn fnm sz buf q lb i list n =
      match globDescend fnm sz buf q lb i 63 list n with
      | (l, some e) => .done l (some e)
      | (l, none) => stepBr fnm sz buf q lb i l n := by
  unfold stepQn globDescend
  cases hlc : n.lookupChild sz buf 63 with
  | none => rfl
  | some child =>
    cases hac : lb.addChar 63 with
    | error e => rfl
    | ok lb1 =>
      have hrc : lb1.removeChar = lb := addChar_removeChar lb lb1 63 hac
      simp only [hrc]

/-- The whole post-string part of the iteration is the `*` glob descent
followed by the `?` stage. -/
lemma stepRest_eq (fnm : Fnm) (sz : Sizes) (buf : Buf) (q : Chars) (lb : LineBuf)
    (i : Nat) (list : UList) (n : TrieEntry) :
    stepRest fnm sz buf q lb i list n =
      match globDescend fnm sz buf q lb i 42 list n with
      | (l, some e) => .done l (some e)
      | (l, none) => stepQn fnm sz buf q lb i l n := by
  unfold stepRest globDescend
  cases hlc : n.lookupChild sz buf 42 with
  | none => rfl
  | some child =>
    cases hac : lb.addChar 42 with
    | error e => rfl
    | ok lb1 =>
      have hrc : lb1.removeChar = lb := addChar_removeChar lb lb1 42 hac
      simp only [hrc]

/-- C6: at every node (here: a node whose string has been consumed, i.e.
`prefix_off = 0`; the second part extends this to the step function), the
walker first attempts the three glob descents in the fixed order `*`,
`?`, `[` — each pushing its label onto the line buffer, glob-matching the
child with glob position 0 and the byte tail `query[i..]`, then popping
(each later stage runs with the original line buffer) — and only
afterwards performs the literal descent on the query byte at index `i`
(out of range read as NUL byte 0), advancing `i` by exactly 1. -/
theorem c6_descent_order :
    (∀ (fnm : Fnm) (sz : Sizes) (buf : Buf) (q : Chars) (lb : LineBuf) (i : Nat)
      (list : UList) (n : TrieEntry),
      stepRest fnm sz buf q lb i list n =
        match globDescend fnm sz buf q lb i 42 list n with
        | (l1, some e) => .done l1 (some e)
        | (l1, none) =>
          match globDescend fnm sz buf q lb i 63 l1 n with
          | (l2, some e) => .done l2 (some e)
          | (l2, none) =>
            match globDescend fnm sz buf q lb i 91 l2 n with
            | (l3, some e) => .done l3 (some e)
            | (l3, none) =>
              .next lb (i + 1)
                (if exhausted q i then emitValues buf n.values l3 else l3)
                (n.lookupChildOff sz buf ((strBytes q).getD i 0))) ∧
    (∀ (fnm : Fnm) (sz : Sizes) (buf : Buf) (q : Chars) (lb : LineBuf) (i : Nat)
      (list : UList) (n : TrieEntry), n.node.prefix_off = 0 →
      trieStep fnm sz buf q lb i list n = stepRest fnm sz buf q lb i list n) := by
  constructor
  · intro fnm sz buf q lb i list n
    rw [stepRest_eq]
    rcases globDescend fnm sz buf q lb i 42 list n with ⟨l1, eo1⟩
    cases eo1 with
    | some e => rfl
    | none =>
      simp only
      rw [stepQn_eq]
      rcases globDescend fnm sz buf q lb i 63 l1 n with ⟨l2, eo2⟩
      cases eo2 with
      | some e => rfl
      | none =>
        simp only
        rw [stepBr_eq]
        rcases globDescend fnm sz buf q lb i 91 l2 n with ⟨l3, eo3⟩
        cases eo3 with
        | some e => rfl
        | none => rfl
  · intro fnm sz buf q lb i list n h
    simp [trieStep, h]

/-- C6 witness: both parts applied to the root entry of `bufC4` (one
child edge labelled 0xC3, no glob edges) with the query "a" at index 0. -/
theorem c6_witness :
    stepRest fnmTriv szD bufC4 [97] LineBuf.empty 0 [] ⟨⟨0, 1, 0⟩, [⟨195, 40⟩], []⟩ =
      (match globDescend fnmTriv szD bufC4 [97] LineBuf.empty 0 42 []
          ⟨⟨0, 1, 0⟩, [⟨195, 40⟩], []⟩ with
      | (l1, some e) => .done l1 (some e)
      | (l1, none) =>
        match globDescend fnmTriv szD bufC4 [97] LineBuf.empty 0 63 l1
            ⟨⟨0, 1, 0⟩, [⟨195, 40⟩], []⟩ with
        | (l2, some e) => .done l2 (some e)
        | (l2, none) =>
          match globDescend fnmTriv szD bufC4 [97] LineBuf.empty 0 91 l2
              ⟨⟨0, 1, 0⟩, [⟨195, 40⟩], []⟩ with
          | (l3, some e) => .done l3 (some e)
          | (l3, none) =>
            .next LineBuf.empty (0 + 1)
              (if exhausted [97] 0 then emitValues bufC4 [] l3 else l3)
              (TrieEntry.lookupChildOff ⟨⟨0, 1, 0⟩, [⟨195, 40⟩], []⟩ szD bufC4
                ((strBytes [97]).getD 0 0))) ∧
    trieStep fnmTriv szD bufC4 [97] LineBuf.empty 0 [] ⟨⟨0, 1, 0⟩, [⟨195, 40⟩], []⟩ =
      stepRest fnmTriv szD bufC4 [97] LineBuf.empty 0 [] ⟨⟨0, 1, 0⟩, [⟨195, 40⟩], []⟩ :=
  ⟨c6_descent_order.1 fnmTriv szD bufC4 [97] LineBuf.empty 0 [] ⟨⟨0, 1, 0⟩, [⟨195, 40⟩], []⟩,
   c6_descent_order.2 fnmTriv szD bufC4 [97] LineBuf.empty 0 [] ⟨⟨0, 1, 0⟩, [⟨195, 40⟩], []⟩ rfl⟩

/-- C9: running the same lookup twice against the same file bytes yields
the same result and the same handle state: the property list is cleared
at the start of each lookup before the search repopulates it, so entries
from an earlier lookup are not observable in a later one. -/
theorem c9_lookup_idempotent :
    ∀ (fnm : Fnm) (sz : Sizes) (fuel : Nat) (h : Hwdb) (file : Option Buf)
      (q : Chars) (fl : Nat) (h1 : Hwdb) (r1 : Except Err UList),
      getPropertiesListEntry fnm sz fuel h file q fl = some (h1, r1) →
      getPropertiesListEntry fnm sz fuel h1 file q fl = some (h1, r1) := by
  intro fnm sz fuel h file q fl h1 r1 hrun
  cases file with
  | none =>
    simp only [getPropertiesListEntry, Option.some.injEq, Prod.mk.injEq] at hrun ⊢
    obtain ⟨rfl, rfl⟩ := hrun
    trivial
  | some buf =>
    simp only [getPropertiesListEntry] at hrun ⊢
    cases hres : trieSearchFueled fnm sz h.head buf q [] fuel with
    | none =>
      rw [hres] at hrun
      exact absurd hrun (by simp)
    | some pr =>
      rcases pr with ⟨l', eo⟩
      cases eo with
      | none =>
        rw [hres] at hrun
        simp only [Option.some.injEq, Prod.mk.injEq] at hrun
        obtain ⟨rfl, rfl⟩ := hrun
        have hhead : ({h with properties_list := l'} : Hwdb).head = h.head := rfl
        rw [hhead, hres]
      | some e =>
        rw [hres] at hrun
        simp only [Option.some.injEq, Prod.mk.injEq] at hrun
        obtain ⟨rfl, rfl⟩ := hrun
        have hhead : ({h with properties_list := l'} : Hwdb).head = h.head := rfl
        rw [hhead, hres]

/-- C10: a lookup call can change only the handle's property list: the
stored header, the resolved database path and the candidate path list are
unchanged whether the lookup succeeds or returns an error. -/
theorem c10_lookup_frame :
    ∀ (fnm : Fnm) (sz : Sizes) (fuel : Nat) (h : Hwdb) (file : Option Buf)
      (q : Chars) (fl : Nat) (h' : Hwdb) (r : Except Err UList),
      getPropertiesListEntry fnm sz fuel h file q fl = some (h', r) →
      h'.head = h.head ∧ h'.hwdb_path = h.hwdb_path ∧ h'.bin_paths = h.bin_paths := by
  intro fnm sz fuel h file q fl h' r hrun
  cases file with
  | none =>
    simp only [getPropertiesListEntry, Option.some.injEq, Prod.mk.injEq] at hrun
    obtain ⟨rfl, rfl⟩ := hrun
    exact ⟨rfl, rfl, rfl⟩
  | some buf =>
    simp only [getPropertiesListEntry] at hrun
    cases hres : trieSearchFueled fnm sz h.head buf q [] fuel with
    | none =>
      rw [hres] at hrun
      exact absurd hrun (by simp)
    | some pr =>
      rcases pr with ⟨l', eo⟩
      cases eo with
      | none =>
        rw [hres] at hrun
        simp only [Option.some.injEq, Prod.mk.injEq] at hrun
        obtain ⟨rfl, rfl⟩ := hrun
        exact ⟨rfl, rfl, rfl⟩
      | some e =>
        rw [hres] at hrun
        simp only [Option.some.injEq, Prod.mk.injEq] at hrun
        obtain ⟨rfl, rfl⟩ := hrun
        exact ⟨rfl, rfl, rfl⟩

/-- A handle holding a stale property list from a previous lookup. -/
def hStale : Hwdb := ⟨[], [], hdC1, [([1], [2])]⟩

/-- The same handle after a lookup that matched nothing. -/
def hClean : Hwdb := ⟨[], [], hdC1, []⟩

/-- C9 witness: a lookup over `bufC1` from the stale handle clears the
old entry and returns the empty result; the idempotence theorem applied
to that run gives the identical second run. -/
theorem c9_witness :
    getPropertiesListEntry fnmTriv szD 2 hStale (some bufC1) [97] 0 =
      some (hClean, .ok []) ∧
    getPropertiesListEntry fnmTriv szD 2 hClean (some bufC1) [97] 0 =
      some (hClean, .ok []) :=
  ⟨rfl, c9_lookup_idempotent fnmTriv szD 2 hStale (some bufC1) [97] 0 hClean (.ok []) rfl⟩

/-- C10 witness: the frame theorem applied to the same concrete run. -/
theorem c10_witness :
    hClean.head = hStale.head ∧ hClean.hwdb_path = hStale.hwdb_path ∧
      hClean.bin_paths = hStale.bin_paths :=
  c10_lookup_frame fnmTriv szD 2 hStale (some bufC1) [97] 0 hClean (.ok []) rfl

/-- Edge relation of the child-offset graph: `a` steps to `b` when a trie
entry decodes at offset `a` and one of its child records points at `b`
inside the buffer.  Acyclicity of this graph (spec section 3 and 8) is
expressed as well-foundedness of its reverse. -/
def childEdge (sz : Sizes) (buf : Buf) (a b : Nat) : Prop :=
  ∃ n ch, TrieEntry.tryFrom sz (buf.drop a) = .ok n ∧ ch ∈ n.children ∧
    ch.child_off = b ∧ b < buf.length

/-- A successful child lookup from an entry decoded at `a` follows one
edge of the child-offset graph and lands on a decodable entry. -/
lemma lookupChildOff_edge (n : TrieEntry) (sz : Sizes) (buf : Buf) (c a b : Nat)
    (m : TrieEntry) (hn : TrieEntry.tryFrom sz (buf.drop a) = .ok n)
    (h : n.lookupChildOff sz buf c = some (b, m)) :
    childEdge sz buf a b ∧ TrieEntry.tryFrom sz (buf.drop b) = .ok m := by
  unfold TrieEntry.lookupChildOff at h
  cases hf : n.children.find? (fun ch => ch.c == c) with
  | none => simp only [hf] at h; cases h
  | some child =>
    simp only [hf] at h
    by_cases hlt : child.child_off < buf.length
    · rw [if_pos hlt] at h
      cases hok : TrieEntry.tryFrom sz (buf.drop child.child_off) with
      | error e => simp only [hok] at h; cases h
      | ok e =>
        simp only [hok, Option.some.injEq, Prod.mk.injEq] at h
        obtain ⟨rfl, rfl⟩ := h
        exact ⟨⟨n, child, hn, List.mem_of_find?_eq_some hf, rfl, hlt⟩, hok⟩
    · rw [if_neg hlt] at h
      cases h

/-- The literal-descent tail always continues with a child lookup on the
query byte at the current index. -/
lemma stepTerm_next (sz : Sizes) (buf : Buf) (q : Chars) (lb : LineBuf) (i : Nat)
    (list : UList) (n : TrieEntry) (lb' : LineBuf) (i' : Nat) (l' : UList)
    (nd : Option (Nat × TrieEntry))
    (h : stepTerm sz buf q lb i list n = .next lb' i' l' nd) :
    nd = n.lookupChildOff sz buf ((strBytes q).getD i 0) := by
  unfold stepTerm at h
  cases h
  rfl

/-- As `stepTerm_next`, lifted over the `[` stage. -/
lemma stepBr_next (fnm : Fnm) (sz : Sizes) (buf : Buf) (q : Chars) (lb : LineBuf)
    (i : Nat) (list : UList) (n : TrieEntry) (lb' : LineBuf) (i' : Nat) (l' : UList)
    (nd : Option (Nat × TrieEntry))
    (h : stepBr fnm sz buf q lb i list n = .next lb' i' l' nd) :
    nd = n.lookupChildOff sz buf ((strBytes q).getD i 0) := by
  unfold stepBr at h
  cases hlc : n.lookupChild sz buf 91 with
  | none =>
    rw [hlc] at h
    exact stepTerm_next _ _ _ _ _ _ _ _ _ _ _ h
  | some child =>
    simp only [hlc] at h
    cases hac : lb.addChar 91 with
    | error e => simp only [hac] at h; cases h
    | ok lb1 =>
      simp only [hac] at h
      rcases hf : fnm lb1 buf child 0 ((strBytes q).drop i) list with ⟨l1, eo⟩
      simp only [hf] at h
      cases eo with
      | some e => cases h
      | none => exact stepTerm_next _ _ _ _ _ _ _ _ _ _ _ h

/-- As `stepTerm_next`, lifted over the `?` stage. -/
lemma stepQn_next (fnm : Fnm) (sz : Sizes) (buf : Buf) (q : Chars) (lb : LineBuf)
    (i : Nat) (list : UList) (n : TrieEntry) (lb' : LineBuf) (i' : Nat) (l' : UList)
    (nd : Option (Nat × TrieEntry))
    (h : stepQn fnm sz buf q lb i list n = .next lb' i' l' nd) :
    nd = n.lookupChildOff sz buf ((strBytes q).getD i 0) := by
  unfold stepQn at h
  cases hlc : n.lookupChild sz buf 63 with
  | none =>
    rw [hlc] at h
    exact stepBr_next _ _ _ _ _ _ _ _ _ _ _ _ h
  | some child =>
    simp only [hlc] at h
    cases hac : lb.addChar 63 with
    | error e => simp only [hac] at h; cases h
    | ok lb1 =>
      simp only [hac] at h
      rcases hf : fnm lb1 buf child 0 ((strBytes q).drop i) list with ⟨l1, eo⟩
      simp only [hf] at h
      cases eo with
      | some e => cases h
      | none => exact stepBr_next _ _ _ _ _ _ _ _ _ _ _ _ h

/-- As `stepTerm_next`, lifted over the `*` stage. -/
lemma stepRest_next (fnm : Fnm) (sz : Sizes) (buf : Buf) (q : Chars) (lb : LineBuf)
    (i : Nat) (list : UList) (n : TrieEntry) (lb' : LineBuf) (i' : Nat) (l' : UList)
    (nd : Option (Nat × TrieEntry))
    (h : stepRest fnm sz buf q lb i list n = .next lb' i' l' nd) :
    nd = n.lookupChildOff sz buf ((strBytes q).getD i 0) := by
  unfold stepRest at h
  cases hlc : n.lookupChild sz buf 42 with
  | none =>
    rw [hlc] at h
    exact stepQn_next _ _ _ _ _ _ _ _ _ _ _ _ h
  | some child =>
    simp only [hlc] at h
    cases hac : lb.addChar 42 with
    | error e => simp only [hac] at h; cases h
    | ok lb1 =>
      simp only [hac] at h
      rcases hf : fnm lb1 buf child 0 ((strBytes q).drop i) list with ⟨l1, eo⟩
      simp only [hf] at h
      cases eo with
      | some e => cases h
      | none => exact stepQn_next _ _ _ _ _ _ _ _ _ _ _ _ h

/-- Every continuation of a loop iteration is a child lookup on some
byte. -/
lemma trieStep_next (fnm : Fnm) (sz : Sizes) (buf : Buf) (q : Chars) (lb : LineBuf)
    (i : Nat) (list : UList) (n : TrieEntry) (lb' : LineBuf) (i' : Nat) (l' : UList)
    (nd : Option (Nat × TrieEntry))
    (h : trieStep fnm sz buf q lb i list n = .next lb' i' l' nd) :
    ∃ c, nd = n.lookupChildOff sz buf c := by
  unfold trieStep at h
  by_cases hp : 0 < n.node.prefix_off
  · rw [if_pos hp] at h
    cases hs : scanPfx q i (trieString buf n.node.prefix_off) 0 with
    | glob p =>
      simp only [hs] at h
      cases h
    | mismatch =>
      simp only [hs] at h
      cases h
    | through =>
      simp only [hs] at h
      exact ⟨_, stepRest_next _ _ _ _ _ _ _ _ _ _ _ _ h⟩
  · rw [if_neg hp] at h
    exact ⟨_, stepRest_next _ _ _ _ _ _ _ _ _ _ _ _ h⟩

/-- Fuel adequacy of the search loop under a well-founded (acyclic)
child-offset graph: from any decodable entry, some finite fuel completes
the walk. -/
lemma trieLoop_term (fnm : Fnm) (sz : Sizes) (buf : Buf) (q : Chars)
    (wf : WellFounded (fun b a : Nat => childEdge sz buf a b)) :
    ∀ (a : Nat) (n : TrieEntry), TrieEntry.tryFrom sz (buf.drop a) = .ok n →
    ∀ (lb : LineBuf) (i : Nat) (list : UList),
    ∃ fuel, (trieLoop fnm sz buf q fuel (some (a, n)) lb i list).isSome := by
  intro a
  refine @WellFounded.induction Nat (fun b a => childEdge sz buf a b) wf
    (fun a => ∀ n, TrieEntry.tryFrom sz (buf.drop a) = .ok n →
      ∀ lb i list, ∃ fuel,
        (trieLoop fnm sz buf q fuel (some (a, n)) lb i list).isSome = true) a ?_
  intro x ih n hn lb i list
  cases hstep : trieStep fnm sz buf q lb i list n with
  | done l e =>
    refine ⟨1, ?_⟩
    simp [trieLoop, hstep]
  | next lb' i' l' nd =>
    cases nd with
    | none =>
      refine ⟨2, ?_⟩
      simp [trieLoop, hstep]
    | some pr =>
      rcases pr with ⟨b, m⟩
      obtain ⟨c, hc⟩ := trieStep_next fnm sz buf q lb i list n lb' i' l' _ hstep
      have hlo : n.lookupChildOff sz buf c = some (b, m) := hc.symm
      obtain ⟨hedge, hokm⟩ := lookupChildOff_edge n sz buf c x b m hn hlo
      obtain ⟨fuel, hfuel⟩ := ih b hedge m hokm lb' i' l'
      refine ⟨fuel + 1, ?_⟩
      simpa [trieLoop, hstep] using hfuel

/-- C8: for every database buffer whose child-offset graph is acyclic
(well-founded), every record-size state, every glob matcher, every query
and every starting list, the trie search terminates: some finite fuel
makes the walk loop (and its child lookups) complete. -/
theorem c8_termination :
    ∀ (fnm : Fnm) (sz : Sizes) (head : TrieHeader) (buf : Buf) (q : Chars)
      (list : UList),
      WellFounded (fun b a : Nat => childEdge sz buf a b) →
      ∃ fuel, (trieSearchFueled fnm sz head buf q list fuel).isSome := by
  intro fnm sz head buf q list wf
  by_cases hr : head.nodes_root_off < buf.length
  · cases hok : TrieEntry.tryFrom sz (buf.drop head.nodes_root_off) with
    | error e =>
      refine ⟨0, ?_⟩
      simp only [trieSearchFueled, if_pos hr, hok]
      rfl
    | ok e =>
      obtain ⟨fuel, hfuel⟩ :=
        trieLoop_term fnm sz buf q wf head.nodes_root_off e hok LineBuf.empty 0 list
      refine ⟨fuel, ?_⟩
      simp only [trieSearchFueled, if_pos hr, hok]
      exact hfuel
  · refine ⟨0, ?_⟩
    simp only [trieSearchFueled, if_neg hr]
    rfl

/-- The database `bufC1` has no edges at all in its child-offset graph:
the only decodable entry (at offset 0) has an empty child table, and
every other offset is too short to decode. -/
lemma noEdge_bufC1 : ∀ a b : Nat, ¬ childEdge szD bufC1 a b := by
  intro a b h
  obtain ⟨n, ch, hok, hmem, -, -⟩ := h
  rcases Nat.eq_zero_or_pos a with rfl | ha
  · rw [show TrieEntry.tryFrom szD (bufC1.drop 0) = .ok ⟨⟨0, 1, 0⟩, [], []⟩ from rfl] at hok
    cases hok
    cases hmem
  · have h24 : bufC1.length = 24 := rfl
    have hlen : (bufC1.drop a).length < szD.node_size := by
      rw [List.length_drop, h24]
      show 24 - a < 24
      omega
    rw [trieEntry_tryFrom_short szD _ hlen] at hok
    cases hok

/-- The reverse child-offset relation of `bufC1` is well-founded, having
no related pairs. -/
lemma wf_bufC1 : WellFounded (fun b a : Nat => childEdge szD bufC1 a b) :=
  ⟨fun a => Acc.intro a (fun b hb => absurd hb (noEdge_bufC1 a b))⟩

/-- C8 witness: the termination theorem applied to the concrete acyclic
database `bufC1` under its header `hdC1` and the query "a". -/
theorem c8_witness :
    ∃ fuel, (trieSearchFueled fnmTriv szD hdC1 bufC1 [97] [] fuel).isSome :=
  c8_termination fnmTriv szD hdC1 bufC1 [97] [] wf_bufC1
